/- Verification of the list-filter and collapsible-section widgets
   (src/snippets/collapsible_section/res/collapsiblesection.js,
    src/snippets/filter/res/filter_jquery.js).

   Strings are modelled as lists of characters (`Str`).  DOM attribute
   reads (`getAttribute`) return `Option Str`, `none` playing the role of
   JavaScript's `null`.  The filter mapping is an association list in
   insertion order, mirroring a JavaScript object with string keys. -/
import Mathlib

abbrev Str := List Char

def semi : Char := ';'

def eqc : Char := '='

def hashc : Char := '#'

def bangc : Char := '!'

def spc : Char := ' '

def starV : Str := "*".toList

def orStr : Str := "or".toList

def andStr : Str := "and".toList

def dfPre : Str := "data-filter-".toList

def hashBang : Str := "#!".toList

/- ---------- the in-memory filter mapping (a JS object) ---------- -/

abbrev FilterMap := List (Str × Str)

/-- `filter[key] = v` on a JS object: overwrite the existing entry in place,
or append a new entry at the end. -/
def setKey : FilterMap → Str → Str → FilterMap
  | [], k, v => [(k, v)]
  | p :: rest, k, v => if p.1 = k then (k, v) :: rest else p :: setKey rest k v

/-- Reading `filter[key]` (`none` when the key is absent). -/
def lookupF : FilterMap → Str → Option Str
  | [], _ => none
  | p :: rest, k => if p.1 = k then some p.2 else lookupF rest k

/- ---------- list items and updateListFromFilter ---------- -/

/-- An element child of the filtered list: its attributes and its `hidden`
presentation attribute. -/
structure Item where
  attrs : List (Str × Str)
  hidden : Bool
deriving DecidableEq, Repr

/-- `elem.getAttribute name` over a fixed attribute list. -/
def getAttr (attrs : List (Str × Str)) (name : Str) : Option Str :=
  (attrs.find? (fun p => p.1 = name)).map (fun p => p.2)

/-- The per-item loop body of `updateListFromFilter` (collapsiblesection.js
lines 280-299): `shouldShow` starts at `!isOr`; in `or` mode the first key
whose wanted value matches the item (or is the wildcard) shows the item and
stops; otherwise the first key whose non-wildcard wanted value differs from
the item hides it and stops. -/
def itemShouldShow : Bool → List (Str × Str) → FilterMap → Bool
  | isOr, _, [] => !isOr
  | true, attrs, (k, v) :: rest =>
    if getAttr attrs (dfPre ++ k) = some v ∨ v = starV then true
    else itemShouldShow true attrs rest
  | false, attrs, (k, v) :: rest =>
    if getAttr attrs (dfPre ++ k) ≠ some v ∧ v ≠ starV then false
    else itemShouldShow false attrs rest

/-- `updateListFromFilter(list, filter, joinType)`: every element child gets
its `hidden` attribute set (item filtered out) or removed (item shown). -/
def updateListFromFilter (items : List Item) (filter : FilterMap) (joinType : Str) :
    List Item :=
  items.map (fun it => { it with hidden := !(itemShouldShow (joinType = orStr) it.attrs filter) })

/- ---------- basic facts about the AND / OR loops ---------- -/

theorem itemShouldShow_and_iff (attrs : List (Str × Str)) (filter : FilterMap) :
    itemShouldShow false attrs filter = true ↔
      ∀ kv ∈ filter, kv.2 ≠ starV → getAttr attrs (dfPre ++ kv.1) = some kv.2 := by
  induction filter with
  | nil => simp [itemShouldShow]
  | cons kv rest ih =>
    obtain ⟨k, v⟩ := kv
    by_cases hmatch : getAttr attrs (dfPre ++ k) ≠ some v ∧ v ≠ starV
    · simp only [itemShouldShow, if_pos hmatch]
      constructor
      · intro h; exact absurd h (by simp)
      · intro h
        exact absurd (h (k, v) (by simp) hmatch.2) hmatch.1
    · simp only [itemShouldShow, if_neg hmatch]
      rw [ih]
      constructor
      · intro h kv hkv hv
        rcases List.mem_cons.mp hkv with h1 | h1
        · subst h1
          rcases not_and_or.mp hmatch with h2 | h2
          · simpa using h2
          · exact absurd hv (by simpa using h2)
        · exact h kv h1 hv
      · intro h kv hkv hv
        exact h kv (List.mem_cons_of_mem _ hkv) hv

theorem itemShouldShow_or_iff (attrs : List (Str × Str)) (filter : FilterMap) :
    itemShouldShow true attrs filter = true ↔
      ∃ kv ∈ filter, getAttr attrs (dfPre ++ kv.1) = some kv.2 ∨ kv.2 = starV := by
  induction filter with
  | nil => simp [itemShouldShow]
  | cons kv rest ih =>
    obtain ⟨k, v⟩ := kv
    by_cases hmatch : getAttr attrs (dfPre ++ k) = some v ∨ v = starV
    · simp only [itemShouldShow, if_pos hmatch]
      constructor
      · intro _; exact ⟨(k, v), by simp, hmatch⟩
      · intro _; trivial
    · simp only [itemShouldShow, if_neg hmatch]
      rw [ih]
      constructor
      · rintro ⟨kv, hkv, hm⟩
        exact ⟨kv, List.mem_cons_of_mem _ hkv, hm⟩
      · rintro ⟨kv, hkv, hm⟩
        rcases List.mem_cons.mp hkv with h1 | h1
        · subst h1; exact absurd hm hmatch
        · exact ⟨kv, h1, hm⟩

/- ---------- C1 ---------- -/

/-- C1: in `AND` join mode, `updateListFromFilter` shows the i-th element
child of the list (leaves `hidden` unset) if and only if every key of the
filter whose wanted value is not the wildcard `"*"` has the item's
`data-filter-<key>` attribute equal to that wanted value. -/
theorem C1_and_mode_shows_iff (filter : FilterMap) (items : List Item) (i : Nat)
    (hi : i < (updateListFromFilter items filter andStr).length) (hi2 : i < items.length) :
    ((updateListFromFilter items filter andStr).get ⟨i, hi⟩).hidden = false ↔
      ∀ kv ∈ filter, kv.2 ≠ starV →
        getAttr ((items.get ⟨i, hi2⟩).attrs) (dfPre ++ kv.1) = some kv.2 := by
  have hd : (decide (andStr = orStr)) = false := by decide
  simp only [updateListFromFilter, List.get_eq_getElem, List.getElem_map, hd]
  rw [Bool.not_eq_false']
  exact itemShouldShow_and_iff _ filter

def c1Filter : FilterMap := [("country".toList, "Norway".toList)]

def c1Item : Item := { attrs := [("data-filter-country".toList, "Norway".toList)], hidden := false }

theorem C1_witness :
    ((updateListFromFilter [c1Item] c1Filter andStr).get ⟨0, by decide⟩).hidden = false ↔
      ∀ kv ∈ c1Filter, kv.2 ≠ starV →
        getAttr ((([c1Item] : List Item).get ⟨0, by decide⟩).attrs) (dfPre ++ kv.1) = some kv.2 :=
  C1_and_mode_shows_iff c1Filter [c1Item] 0 (by decide) (by decide)

/- ---------- C2 ---------- -/

def c2Filter : FilterMap := [("a".toList, "*".toList), ("b".toList, "x".toList)]

def c2Item : Item := { attrs := [("data-filter-b".toList, "y".toList)], hidden := false }

/-- C2 counterexample: with filter `{a: "*", b: "x"}` in `OR` mode, an item
carrying `data-filter-b="y"` is shown by the code (the wildcard entry for
`a` matches), while the claim - at least one non-wildcard key matches, or
the filter is entirely wildcards - says it must be hidden. -/
theorem C2_counterexample :
    (updateListFromFilter [c2Item] c2Filter orStr).map Item.hidden = [false] ∧
    ¬ ((∃ kv ∈ c2Filter, kv.2 ≠ starV ∧ getAttr c2Item.attrs (dfPre ++ kv.1) = some kv.2) ∨
       (∀ kv ∈ c2Filter, kv.2 = starV)) := by
  decide

/-- C2 amended: in `OR` join mode, `updateListFromFilter` shows the i-th
element child if and only if at least one key of the filter has a wanted
value that equals the item's `data-filter-<key>` attribute or is the
wildcard `"*"` (so any wildcard entry alone suffices to show the item, and
an empty filter hides it). -/
theorem C2_or_mode_shows_iff (filter : FilterMap) (items : List Item) (i : Nat)
    (hi : i < (updateListFromFilter items filter orStr).length) (hi2 : i < items.length) :
    ((updateListFromFilter items filter orStr).get ⟨i, hi⟩).hidden = false ↔
      ∃ kv ∈ filter,
        getAttr ((items.get ⟨i, hi2⟩).attrs) (dfPre ++ kv.1) = some kv.2 ∨ kv.2 = starV := by
  have hd : (decide (orStr = orStr)) = true := by decide
  simp only [updateListFromFilter, List.get_eq_getElem, List.getElem_map, hd]
  rw [Bool.not_eq_false']
  exact itemShouldShow_or_iff _ filter

theorem C2_witness :
    ((updateListFromFilter [c2Item] c2Filter orStr).get ⟨0, by decide⟩).hidden = false ↔
      ∃ kv ∈ c2Filter,
        getAttr ((([c2Item] : List Item).get ⟨0, by decide⟩).attrs) (dfPre ++ kv.1) = some kv.2 ∨
          kv.2 = starV :=
  C2_or_mode_shows_iff c2Filter [c2Item] 0 (by decide) (by decide)

/- ---------- URL fragment decoding (updateFilterPartFromUrl) ---------- -/

/-- `location.hash.match(/^#!(.+)/)`: the fragment must start with `#!` and
have at least one further character; the capture group is that remainder. -/
def anchoredPayload : Str → Option Str
  | '#' :: '!' :: c :: rest => some (c :: rest)
  | _ => none

/-- One attempt of the regex `(?:^|;)key=([^;]+)` at a fixed position: the
text must start with `key=` followed by at least one non-`;` character;
those characters (greedily) are the captured value. -/
def segValueAt (keyEq s : Str) : Option Str :=
  if keyEq.isPrefixOf s then
    let v := (s.drop keyEq.length).takeWhile (fun c => c ≠ semi)
    if v = [] then none else some v
  else none

/-- The regex alternative that anchors `key=` right after a `;`, scanning
left to right. -/
def findSegAfterSemi (keyEq : Str) : Str → Option Str
  | [] => none
  | c :: rest =>
    if c = semi then
      match segValueAt keyEq rest with
      | some v => some v
      | none => findSegAfterSemi keyEq rest
    else findSegAfterSemi keyEq rest

/-- `payload.match('(?:^|;)' + key + '=([^;]+)')`: try the start of the
payload first, then every position following a `;`. -/
def findSegValue (keyEq s : Str) : Option Str :=
  match segValueAt keyEq s with
  | some v => some v
  | none => findSegAfterSemi keyEq s

/-- The value `updateFilterPartFromUrl` computes for `key` (collapsiblesection.js
lines 221-236): the captured group if the anchored `#!` payload contains a
matching segment, the supplied default otherwise. -/
def filterValueFromUrl (hash key dflt : Str) : Str :=
  match anchoredPayload hash with
  | none => dflt
  | some payload =>
    match findSegValue (key ++ [eqc]) payload with
    | none => dflt
    | some v => v

/-- `updateFilterPartFromUrl(filter, key, defaultValue)` with the current
`location.hash` passed explicitly: assigns the decoded (or default) value
to `filter[key]`. -/
def updateFilterPartFromUrl (hash : Str) (filter : FilterMap) (key dflt : Str) : FilterMap :=
  setKey filter key (filterValueFromUrl hash key dflt)

/- ---------- splitting a payload into `;`-separated segments ---------- -/

/-- Split a string at every occurrence of a character (the segments of the
filter expression when applied with `;`). -/
def splitCh (ch : Char) : Str → List Str
  | [] => [[]]
  | c :: rest =>
    if c = ch then [] :: splitCh ch rest
    else
      match splitCh ch rest with
      | [] => [[c]]
      | s :: ss => (c :: s) :: ss

theorem splitCh_ne_nil (ch : Char) (s : Str) : splitCh ch s ≠ [] := by
  cases s with
  | nil => simp [splitCh]
  | cons c rest =>
    by_cases h : c = ch
    · simp [splitCh, h]
    · simp only [splitCh, if_neg h]
      cases splitCh ch rest <;> simp

theorem lookupF_setKey_self (f : FilterMap) (k v : Str) :
    lookupF (setKey f k v) k = some v := by
  induction f with
  | nil => simp [setKey, lookupF]
  | cons p rest ih =>
    by_cases h : p.1 = k
    · simp [setKey, h, lookupF]
    · simp [setKey, h, lookupF, ih]

theorem prefix_head_splitCh (a : Str) :
    ∀ p : Str, semi ∉ a → a <+: p →
      ∃ s ss, splitCh semi p = s :: ss ∧ a <+: s := by
  induction a with
  | nil =>
    intro p _ _
    cases hsp : splitCh semi p with
    | nil => exact absurd hsp (splitCh_ne_nil semi p)
    | cons s ss => exact ⟨s, ss, rfl, List.nil_prefix⟩
  | cons c a' ih =>
    intro p hsemi hpre
    cases p with
    | nil =>
      exact absurd (List.prefix_nil.mp hpre) (by simp)
    | cons d p' =>
      obtain ⟨hcd, hpre'⟩ := List.cons_prefix_cons.mp hpre
      subst hcd
      have hc : c ≠ semi := fun h => hsemi (h ▸ List.mem_cons_self c a')
      have ha' : semi ∉ a' := fun h => hsemi (List.mem_cons_of_mem c h)
      obtain ⟨s, ss, hsp, hs⟩ := ih p' ha' hpre'
      refine ⟨c :: s, ss, ?_, List.cons_prefix_cons.mpr ⟨rfl, hs⟩⟩
      simp only [splitCh, if_neg hc, hsp]

theorem segValueAt_none_of_no_seg (keyEq p : Str) (hsemi : semi ∉ keyEq)
    (h : ∀ s ∈ splitCh semi p, ¬ keyEq <+: s) : segValueAt keyEq p = none := by
  have hnp : ¬ (keyEq.isPrefixOf p = true) := by
    intro hp
    obtain ⟨s, ss, hsp, hs⟩ :=
      prefix_head_splitCh keyEq p hsemi (List.isPrefixOf_iff_prefix.mp hp)
    exact h s (by rw [hsp]; exact List.mem_cons_self s ss) hs
  simp only [segValueAt, if_neg hnp]

theorem findSegAfterSemi_none (keyEq : Str) (hsemi : semi ∉ keyEq) :
    ∀ p : Str, (∀ s ∈ (splitCh semi p).tail, ¬ keyEq <+: s) →
      findSegAfterSemi keyEq p = none := by
  intro p
  induction p with
  | nil => intro _; rfl
  | cons c rest ih =>
    intro h
    by_cases hc : c = semi
    · have hall : ∀ s ∈ splitCh semi rest, ¬ keyEq <+: s := by
        intro s hs
        apply h s
        simp only [splitCh, if_pos hc, List.tail_cons]
        exact hs
      have h1 : segValueAt keyEq rest = none :=
        segValueAt_none_of_no_seg keyEq rest hsemi hall
      have h2 : findSegAfterSemi keyEq rest = none := by
        apply ih
        intro s hs
        exact hall s (List.mem_of_mem_tail hs)
      simp only [findSegAfterSemi, if_pos hc, h1, h2]
    · have h2 : findSegAfterSemi keyEq rest = none := by
        apply ih
        intro s hs
        apply h s
        cases hsp : splitCh semi rest with
        | nil => exact absurd hsp (splitCh_ne_nil semi rest)
        | cons s0 ss =>
          rw [hsp] at hs
          simp only [splitCh, if_neg hc, hsp, List.tail_cons]
          exact hs
      simp only [findSegAfterSemi, if_neg hc, h2]

theorem findSegValue_none (keyEq p : Str) (hsemi : semi ∉ keyEq)
    (h : ∀ s ∈ splitCh semi p, ¬ keyEq <+: s) : findSegValue keyEq p = none := by
  have h1 : segValueAt keyEq p = none := segValueAt_none_of_no_seg keyEq p hsemi h
  have h2 : findSegAfterSemi keyEq p = none :=
    findSegAfterSemi_none keyEq hsemi p (fun s hs => h s (List.mem_of_mem_tail hs))
  simp only [findSegValue, h1, h2]

/- ---------- C5 ---------- -/

/-- C5: whenever the fragment does not start with the `#!` marker, or its
payload has no `;`-bounded segment beginning with `key=`,
`updateFilterPartFromUrl` stores the supplied default value for that key. -/
theorem C5_decode_falls_back_to_default (hash : Str) (filter : FilterMap) (key dflt : Str)
    (hk : semi ∉ key)
    (hcond : anchoredPayload hash = none ∨
      ∀ s ∈ splitCh semi ((anchoredPayload hash).getD []),
        (key ++ [eqc]).isPrefixOf s = false) :
    lookupF (updateFilterPartFromUrl hash filter key dflt) key = some dflt := by
  rw [updateFilterPartFromUrl, lookupF_setKey_self]
  have hks : semi ∉ key ++ [eqc] := by
    intro hmem
    rcases List.mem_append.mp hmem with h1 | h1
    · exact hk h1
    · simp only [List.mem_singleton] at h1
      exact absurd h1 (by decide)
  rcases hcond with hnone | hseg
  · simp only [filterValueFromUrl, hnone]
  · cases hp : anchoredPayload hash with
    | none => simp only [filterValueFromUrl, hp]
    | some payload =>
      rw [hp] at hseg
      have hfind : findSegValue (key ++ [eqc]) payload = none := by
        apply findSegValue_none _ _ hks
        intro s hs hpre
        have := hseg s hs
        rw [List.isPrefixOf_iff_prefix.mpr hpre] at this
        exact Bool.true_eq_false.mp this
      simp only [filterValueFromUrl, hp, hfind]

def c5Hash : Str := "#!a=1".toList

def c5Key : Str := "b".toList

def c5Dflt : Str := "*".toList

theorem C5_witness :
    lookupF (updateFilterPartFromUrl c5Hash [] c5Key c5Dflt) c5Key = some c5Dflt :=
  C5_decode_falls_back_to_default c5Hash [] c5Key c5Dflt (by decide) (Or.inr (by decide))

/- ---------- URL fragment encoding (updateUrlFromFilterPart) ---------- -/

/-- `location.hash.match(/#!(.+)/)` (unanchored): the capture group after
the first occurrence of `#!` that is followed by at least one character. -/
def findBangPayload : Str → Option Str
  | '#' :: '!' :: c :: rest => some (c :: rest)
  | _ :: rest => findBangPayload rest
  | [] => none

/-- `newFragment.replace(new RegExp('(' + key + '=[^;]*)'), newFilterPart)`
restricted to reporting whether the pattern matched: scanning left to
right, at the first position where `key=` occurs the matched text extends
over the following run of non-`;` characters and is replaced by `newPart`;
`none` when the pattern occurs nowhere. -/
def replaceKeyVal (keyEq newPart : Str) : Str → Option Str
  | [] => if keyEq.isPrefixOf ([] : Str) then some newPart else none
  | c :: rest =>
    if keyEq.isPrefixOf (c :: rest) then
      some (newPart ++ ((c :: rest).drop keyEq.length).dropWhile (fun x => x ≠ semi))
    else
      (replaceKeyVal keyEq newPart rest).map (fun z => c :: z)

/-- `updateUrlFromFilterPart` (collapsiblesection.js lines 250-269) with the
value to write passed explicitly, assuming `history.pushState` is
supported: rebuild the fragment from the existing `#!` payload, replace an
existing `key=...` match in place, and otherwise append `key=value`,
`;`-separated when a payload already existed. -/
def updateUrlValue (hash key value : Str) : Str :=
  match findBangPayload hash with
  | some payload =>
    match replaceKeyVal (key ++ [eqc]) (key ++ eqc :: value) (hashBang ++ payload) with
    | some s => s
    | none => (hashBang ++ payload) ++ semi :: (key ++ eqc :: value)
  | none =>
    match replaceKeyVal (key ++ [eqc]) (key ++ eqc :: value) hashBang with
    | some s => s
    | none => hashBang ++ (key ++ eqc :: value)

/-- `updateUrlFromFilterPart(filter, key)`: writes `filter[key]` into the
fragment (the setup code guarantees the key is present in the filter). -/
def updateUrlFromFilterPart (hash : Str) (filter : FilterMap) (key : Str) : Str :=
  updateUrlValue hash key ((lookupF filter key).getD [])

/- ---------- well-formed encoded fragments ---------- -/

/-- One `key=value` segment of the fragment payload. -/
def seg (p : Str × Str) : Str := p.1 ++ eqc :: p.2

/-- `;`-prefixed segments, as appended by `updateUrlFromFilterPart`. -/
def encTail : List (Str × Str) → Str
  | [] => []
  | p :: rest => semi :: seg p ++ encTail rest

/-- The payload encoding a list of key/value pairs, `;`-separated. -/
def enc : List (Str × Str) → Str
  | [] => []
  | p :: rest => seg p ++ encTail rest

/-- Well-formedness of an encoded pair list with respect to a key being
written: the key is non-empty and free of the structural characters, and
no other key of the fragment ends in the written key (the unanchored
replace pattern would otherwise match inside that other key's segment). -/
abbrev WFfrag (ps : List (Str × Str)) (key : Str) : Prop :=
  key ≠ [] ∧ semi ∉ key ∧ eqc ∉ key ∧ hashc ∉ key ∧ bangc ∉ key ∧
  ∀ p ∈ ps, semi ∉ p.1 ∧ eqc ∉ p.1 ∧ semi ∉ p.2 ∧ eqc ∉ p.2 ∧
    (p.1 ≠ key → ¬ key <:+ p.1)

/- ---------- generic scanning lemmas ---------- -/

theorem prefix_append_split (pat a b : Str) (h : pat <+: a ++ b)
    (hl : a.length ≤ pat.length) : a <+: pat ∧ pat.drop a.length <+: b := by
  obtain ⟨t, ht⟩ := h
  constructor
  · have h1 : (pat ++ t).take a.length = pat.take a.length :=
      List.take_append_of_le_length hl
    rw [ht, List.take_left] at h1
    exact h1 ▸ List.take_prefix a.length pat
  · have h2 : (pat ++ t).drop a.length = pat.drop a.length ++ t :=
      List.drop_append_of_le_length hl
    rw [ht, List.drop_left] at h2
    exact ⟨t, h2.symm⟩

theorem suffix_append_cases (t x y : Str) (h : t <:+ x ++ y) :
    t <:+ y ∨ ∃ u, u <:+ x ∧ t = u ++ y := by
  induction x with
  | nil => exact Or.inl (by simpa using h)
  | cons c x' ih =>
    rw [List.cons_append] at h
    rcases List.suffix_cons_iff.mp h with h1 | h1
    · exact Or.inr ⟨c :: x', List.suffix_refl _, by rw [h1, List.cons_append]⟩
    · rcases ih h1 with h2 | ⟨u, hu, ht⟩
      · exact Or.inl h2
      · exact Or.inr ⟨u, hu.trans (List.suffix_cons c x'), ht⟩

theorem eqc_block (a : Str) : ∀ key b : Str, eqc ∉ a →
    key ++ [eqc] <+: a ++ b →
    a <+: key ∧ (key.drop a.length ++ [eqc]) <+: b := by
  induction a with
  | nil =>
    intro key b _ h
    exact ⟨List.nil_prefix, by simpa using h⟩
  | cons c a' ih =>
    intro key b ha h
    rw [List.cons_append] at h
    cases key with
    | nil =>
      rw [List.nil_append] at h
      obtain ⟨h1, _⟩ := List.cons_prefix_cons.mp h
      exact absurd h1.symm (fun he => ha (he ▸ List.mem_cons_self c a'))
    | cons k0 key' =>
      have h' : k0 :: (key' ++ [eqc]) <+: c :: (a' ++ b) := by
        simpa using h
      obtain ⟨hk0, hrest⟩ := List.cons_prefix_cons.mp h'
      have ha' : eqc ∉ a' := fun hm => ha (List.mem_cons_of_mem c hm)
      obtain ⟨h1, h2⟩ := ih key' b ha' hrest
      subst hk0
      constructor
      · exact List.cons_prefix_cons.mpr ⟨rfl, h1⟩
      · simpa using h2

/-- A continuation that is empty or starts at a `;` segment boundary. -/
def SemTail (b : Str) : Prop := b = [] ∨ ∃ b', b = semi :: b'

theorem semTail_encTail (ps : List (Str × Str)) : SemTail (encTail ps) := by
  cases ps with
  | nil => exact Or.inl rfl
  | cons p rest => exact Or.inr ⟨seg p ++ encTail rest, rfl⟩


theorem pat_head_clash (key : Str) (c : Char) (b : Str) (hk0 : key ≠ [])
    (hc : c ∉ key) (h : key ++ [eqc] <+: c :: b) : False := by
  cases key with
  | nil => exact hk0 rfl
  | cons k0 ks =>
    rw [List.cons_append] at h
    obtain ⟨h1, _⟩ := List.cons_prefix_cons.mp h
    exact hc (h1 ▸ List.mem_cons_self k0 ks)

theorem pat_tail_not_semTail (x rest : Str) (hx : semi ∉ x) (hrest : SemTail rest)
    (h : x ++ [eqc] <+: rest) : False := by
  rcases hrest with rfl | ⟨b', rfl⟩
  · have := List.prefix_nil.mp h
    simp at this
  · cases x with
    | nil =>
      rw [List.nil_append] at h
      obtain ⟨h1, _⟩ := List.cons_prefix_cons.mp h
      exact absurd h1 (by decide)
    | cons d ds =>
      rw [List.cons_append] at h
      obtain ⟨h1, _⟩ := List.cons_prefix_cons.mp h
      exact hx (h1 ▸ List.mem_cons_self d ds)

theorem seg_scan_no_match (key : Str) (hk0 : key ≠ []) (hke : eqc ∉ key)
    (hks : semi ∉ key) (k' v' : Str) (hk'e : eqc ∉ k') (hv'e : eqc ∉ v')
    (hsuf : ¬ key <:+ k') (b : Str) (hb : SemTail b)
    (t : Str) (hts : t <:+ k' ++ eqc :: v') :
    ¬ (key ++ [eqc]) <+: t ++ b := by
  intro hpre
  rcases suffix_append_cases t k' (eqc :: v') hts with h1 | ⟨u, hu, rfl⟩
  · rcases List.suffix_cons_iff.mp h1 with rfl | h2
    · rw [List.cons_append] at hpre
      exact pat_head_clash key eqc (v' ++ b) hk0 hke hpre
    · have hte : eqc ∉ t := fun hm => hv'e (h2.subset hm)
      obtain ⟨_, hrest⟩ := eqc_block t key b hte hpre
      have hds : semi ∉ key.drop t.length := fun hm => hks (List.mem_of_mem_drop hm)
      exact pat_tail_not_semTail _ b hds hb hrest
  · by_cases hu0 : u = []
    · subst hu0
      rw [List.nil_append, List.cons_append] at hpre
      exact pat_head_clash key eqc (v' ++ b) hk0 hke hpre
    · rw [List.append_assoc, List.cons_append] at hpre
      have hue : eqc ∉ u := fun hm => hk'e (hu.subset hm)
      obtain ⟨huk, hrest⟩ := eqc_block u key (eqc :: (v' ++ b)) hue hpre
      cases hd : key.drop u.length with
      | nil =>
        have hlen : key.length ≤ u.length := List.drop_eq_nil_iff.mp hd
        have : u = key := huk.eq_of_length_le hlen
        exact hsuf (this ▸ hu)
      | cons d ds =>
        rw [hd, List.cons_append] at hrest
        obtain ⟨h1, _⟩ := List.cons_prefix_cons.mp hrest
        have : d ∈ key := List.mem_of_mem_drop (hd ▸ List.mem_cons_self d ds)
        exact hke (h1 ▸ this)

theorem encTail_scan_no_match (key : Str) (hk0 : key ≠ []) (hke : eqc ∉ key)
    (hks : semi ∉ key) :
    ∀ ps : List (Str × Str),
      (∀ p ∈ ps, eqc ∉ p.1 ∧ eqc ∉ p.2 ∧ ¬ key <:+ p.1) →
      ∀ b : Str, SemTail b → ∀ t : Str, t ≠ [] → t <:+ encTail ps →
      ¬ (key ++ [eqc]) <+: t ++ b := by
  intro ps
  induction ps with
  | nil =>
    intro _ b _ t ht hts
    rw [encTail] at hts
    exact absurd (List.suffix_nil.mp hts) ht
  | cons p rest ih =>
    intro hps b hb t ht hts
    intro hpre
    rw [encTail] at hts
    rcases List.suffix_cons_iff.mp hts with rfl | h1
    · rw [List.cons_append] at hpre
      exact pat_head_clash key semi _ hk0 hks hpre
    · rcases suffix_append_cases t (seg p) (encTail rest) h1 with h2 | ⟨u, hu, rfl⟩
      · exact ih (fun q hq => hps q (List.mem_cons_of_mem p hq)) b hb t ht h2 hpre
      · by_cases hu0 : u = []
        · subst hu0
          rw [List.nil_append] at hpre ht
          exact ih (fun q hq => hps q (List.mem_cons_of_mem p hq)) b hb _ ht
            (List.suffix_refl _) hpre
        · obtain ⟨h1e, h2e, h3s⟩ := hps p (List.mem_cons_self p rest)
          rw [List.append_assoc] at hpre
          refine seg_scan_no_match key hk0 hke hks p.1 p.2 h1e h2e h3s
            (encTail rest ++ b) ?_ u hu hpre
          rcases semTail_encTail rest with he | ⟨b', hbe⟩
          · rw [he, List.nil_append]; exact hb
          · exact Or.inr ⟨b' ++ b, by rw [hbe, List.cons_append]⟩

theorem enc_scan_no_match (key : Str) (hk0 : key ≠ []) (hke : eqc ∉ key)
    (hks : semi ∉ key) (ps : List (Str × Str))
    (hps : ∀ p ∈ ps, eqc ∉ p.1 ∧ eqc ∉ p.2 ∧ ¬ key <:+ p.1)
    (t : Str) (ht : t ≠ []) (hts : t <:+ enc ps) :
    ¬ (key ++ [eqc]) <+: t := by
  intro hpre
  cases ps with
  | nil =>
    rw [enc] at hts
    exact absurd (List.suffix_nil.mp hts) ht
  | cons p rest =>
    rw [enc] at hts
    have hpre' : (key ++ [eqc]) <+: t ++ ([] : Str) := by rwa [List.append_nil]
    rcases suffix_append_cases t (seg p) (encTail rest) hts with h1 | ⟨u, hu, rfl⟩
    · exact encTail_scan_no_match key hk0 hke hks rest
        (fun q hq => hps q (List.mem_cons_of_mem p hq)) [] (Or.inl rfl) t ht h1 hpre'
    · by_cases hu0 : u = []
      · subst hu0
        rw [List.nil_append] at hpre ht
        have hpre'' : (key ++ [eqc]) <+: encTail rest ++ ([] : Str) := by
          rwa [List.append_nil]
        exact encTail_scan_no_match key hk0 hke hks rest
          (fun q hq => hps q (List.mem_cons_of_mem p hq)) [] (Or.inl rfl) _ ht
          (List.suffix_refl _) hpre''
      · obtain ⟨h1e, h2e, h3s⟩ := hps p (List.mem_cons_self p rest)
        exact seg_scan_no_match key hk0 hke hks p.1 p.2 h1e h2e h3s
          (encTail rest) (semTail_encTail rest) u hu hpre

theorem full_scan_no_match (key : Str) (hk0 : key ≠ []) (hke : eqc ∉ key)
    (hks : semi ∉ key) (hkh : hashc ∉ key) (hkb : bangc ∉ key)
    (ps : List (Str × Str))
    (hps : ∀ p ∈ ps, eqc ∉ p.1 ∧ eqc ∉ p.2 ∧ ¬ key <:+ p.1)
    (t : Str) (ht : t ≠ []) (hts : t <:+ hashBang ++ enc ps) :
    ¬ (key ++ [eqc]) <+: t := by
  intro hpre
  rcases suffix_append_cases t hashBang (enc ps) hts with h1 | ⟨w, hw, rfl⟩
  · exact enc_scan_no_match key hk0 hke hks ps hps t ht h1 hpre
  · have hw2 : w = hashBang ∨ w = [bangc] ∨ w = [] := by
      rcases List.suffix_cons_iff.mp hw with he | he
      · exact Or.inl he
      · rcases List.suffix_cons_iff.mp he with he2 | he2
        · exact Or.inr (Or.inl he2)
        · exact Or.inr (Or.inr (List.suffix_nil.mp he2))
    rcases hw2 with rfl | rfl | rfl
    · exact pat_head_clash key hashc _ hk0 hkh (by simpa [hashBang] using hpre)
    · rw [List.cons_append] at hpre
      exact pat_head_clash key bangc _ hk0 hkb hpre
    · rw [List.nil_append] at hpre ht
      exact enc_scan_no_match key hk0 hke hks ps hps _ ht (List.suffix_refl _) hpre

/- ---------- behaviour of replaceKeyVal ---------- -/

theorem replaceKeyVal_none (pat new : Str) (hpat : pat ≠ []) :
    ∀ s : Str, (∀ t, t ≠ [] → t <:+ s → ¬ pat <+: t) →
      replaceKeyVal pat new s = none := by
  intro s
  induction s with
  | nil =>
    intro _
    have : ¬ (pat.isPrefixOf ([] : Str) = true) := by
      intro h
      exact hpat (List.prefix_nil.mp (List.isPrefixOf_iff_prefix.mp h))
    simp only [replaceKeyVal, if_neg this]
  | cons c rest ih =>
    intro H
    have hnp : ¬ (pat.isPrefixOf (c :: rest) = true) := fun hp =>
      H (c :: rest) (by simp) (List.suffix_refl _) (List.isPrefixOf_iff_prefix.mp hp)
    have hrec : replaceKeyVal pat new rest = none :=
      ih (fun t ht hts => H t ht (hts.trans (List.suffix_cons c rest)))
    rw [replaceKeyVal, if_neg hnp, hrec]
    rfl

theorem replaceKeyVal_append (pat new : Str) :
    ∀ a b : Str, (∀ t, t ≠ [] → t <:+ a → ¬ pat <+: t ++ b) →
      replaceKeyVal pat new (a ++ b) =
        (replaceKeyVal pat new b).map (fun z => a ++ z) := by
  intro a
  induction a with
  | nil =>
    intro b _
    rw [List.nil_append]
    cases replaceKeyVal pat new b <;> simp
  | cons c a' ih =>
    intro b H
    have hnp : ¬ (pat.isPrefixOf (c :: (a' ++ b)) = true) := fun hp =>
      H (c :: a') (by simp) (List.suffix_refl _) (List.isPrefixOf_iff_prefix.mp hp)
    rw [List.cons_append, replaceKeyVal, if_neg hnp,
      ih b (fun t ht hts => H t ht (hts.trans (List.suffix_cons c a')))]
    cases replaceKeyVal pat new b <;> simp

theorem replaceKeyVal_of_isPrefixOf (pat new s : Str) (h : pat.isPrefixOf s = true) :
    replaceKeyVal pat new s =
      some (new ++ (s.drop pat.length).dropWhile (fun x => x ≠ semi)) := by
  cases s with
  | nil =>
    have hp : pat = [] := List.prefix_nil.mp (List.isPrefixOf_iff_prefix.mp h)
    subst hp
    simp [replaceKeyVal]
  | cons c rest =>
    rw [replaceKeyVal, if_pos h]

theorem dropWhile_semi_append (x b : Str) (hx : semi ∉ x) (hb : SemTail b) :
    (x ++ b).dropWhile (fun c => c ≠ semi) = b := by
  rw [List.dropWhile_append_of_pos (by
    intro a ha
    simp only [decide_eq_true_eq]
    exact fun he => hx (he ▸ ha))]
  rcases hb with rfl | ⟨b', rfl⟩
  · rfl
  · rw [List.dropWhile_cons_of_neg (by simp)]

theorem setKey_cons_head (ps : List (Str × Str)) (key v : Str) :
    ∃ q qs, setKey ps key v = q :: qs := by
  cases ps with
  | nil => exact ⟨(key, v), [], rfl⟩
  | cons p rest =>
    by_cases h : p.1 = key
    · exact ⟨(key, v), rest, by simp [setKey, h]⟩
    · exact ⟨p, setKey rest key v, by simp [setKey, h]⟩

theorem not_pat_prefix_semi (key : Str) (hk0 : key ≠ []) (hks : semi ∉ key)
    (b : Str) : ¬ ((key ++ [eqc]).isPrefixOf (semi :: b) = true) := by
  intro hp
  exact pat_head_clash key semi b hk0 hks (List.isPrefixOf_iff_prefix.mp hp)

theorem replaceKeyVal_enc_found (key v0 : Str) (hk0 : key ≠ []) (hke : eqc ∉ key)
    (hks : semi ∉ key) :
    ∀ ps : List (Str × Str),
      (∀ p ∈ ps, semi ∉ p.1 ∧ eqc ∉ p.1 ∧ semi ∉ p.2 ∧ eqc ∉ p.2 ∧
        (p.1 ≠ key → ¬ key <:+ p.1)) →
      key ∈ ps.map Prod.fst →
      replaceKeyVal (key ++ [eqc]) (key ++ eqc :: v0) (enc ps) =
          some (enc (setKey ps key v0)) ∧
        replaceKeyVal (key ++ [eqc]) (key ++ eqc :: v0) (encTail ps) =
          some (encTail (setKey ps key v0)) := by
  intro ps
  induction ps with
  | nil => intro _ hmem; simp at hmem
  | cons p rest ih =>
    intro hps hmem
    have main : replaceKeyVal (key ++ [eqc]) (key ++ eqc :: v0) (enc (p :: rest)) =
        some (enc (setKey (p :: rest) key v0)) := by
      by_cases hpk : p.1 = key
      · have hseg : enc (p :: rest) = (key ++ [eqc]) ++ (p.2 ++ encTail rest) := by
          rw [enc, seg, hpk]
          simp [List.append_assoc]
        have hpre : (key ++ [eqc]).isPrefixOf (enc (p :: rest)) = true := by
          rw [hseg]
          exact List.isPrefixOf_iff_prefix.mpr (List.prefix_append _ _)
        rw [replaceKeyVal_of_isPrefixOf _ _ _ hpre, hseg, List.drop_left]
        obtain ⟨_, _, h2, _, _⟩ := hps p (List.mem_cons_self p rest)
        rw [dropWhile_semi_append p.2 (encTail rest) h2 (semTail_encTail rest)]
        have hset : setKey (p :: rest) key v0 = (key, v0) :: rest := by
          simp [setKey, hpk]
        rw [hset, enc, seg]
      · have hmem' : key ∈ rest.map Prod.fst := by
          rcases List.mem_map.mp hmem with ⟨q, hq, hqe⟩
          rcases List.mem_cons.mp hq with rfl | hq2
          · exact absurd hqe hpk
          · exact List.mem_map.mpr ⟨q, hq2, hqe⟩
        obtain ⟨_, htail⟩ := ih (fun q hq => hps q (List.mem_cons_of_mem p hq)) hmem'
        obtain ⟨h1s, h2e, _, _, h5⟩ := hps p (List.mem_cons_self p rest)
        have hskip : replaceKeyVal (key ++ [eqc]) (key ++ eqc :: v0)
            (seg p ++ encTail rest) =
            (replaceKeyVal (key ++ [eqc]) (key ++ eqc :: v0) (encTail rest)).map
              (fun z => seg p ++ z) := by
          apply replaceKeyVal_append
          intro t ht hts
          exact seg_scan_no_match key hk0 hke hks p.1 p.2 h2e
            ((hps p (List.mem_cons_self p rest)).2.2.2.1) (h5 hpk)
            (encTail rest) (semTail_encTail rest) t hts
        rw [enc, hskip, htail]
        have hset : setKey (p :: rest) key v0 = p :: setKey rest key v0 := by
          simp [setKey, hpk]
        rw [hset, enc]
        rfl
    refine ⟨main, ?_⟩
    have htl : encTail (p :: rest) = semi :: enc (p :: rest) := rfl
    rw [htl, replaceKeyVal, if_neg (not_pat_prefix_semi key hk0 hks _), main]
    obtain ⟨q, qs, hq⟩ := setKey_cons_head (p :: rest) key v0
    rw [hq, encTail, enc]
    rfl

theorem enc_cons_shape (q : Str × Str) (qs : List (Str × Str)) :
    ∃ c cs, enc (q :: qs) = c :: cs := by
  rw [enc, seg]
  cases q.1 with
  | nil => exact ⟨eqc, q.2 ++ encTail qs, by simp⟩
  | cons d ds => exact ⟨d, (ds ++ eqc :: q.2) ++ encTail qs, by simp⟩

theorem findBangPayload_hashBang_cons (c : Char) (rest : Str) :
    findBangPayload (hashBang ++ c :: rest) = some (c :: rest) := rfl

theorem findBangPayload_hashBang_nil : findBangPayload (hashBang ++ []) = none := rfl

theorem setKey_append_of_absent (key v : Str) :
    ∀ ps : List (Str × Str), key ∉ ps.map Prod.fst →
      setKey ps key v = ps ++ [(key, v)] := by
  intro ps
  induction ps with
  | nil => intro _; rfl
  | cons p rest ih =>
    intro hmem
    have hpk : p.1 ≠ key := fun h =>
      hmem (List.mem_map.mpr ⟨p, List.mem_cons_self p rest, h⟩)
    rw [setKey, if_neg hpk, ih (fun h => hmem (List.mem_cons_of_mem _ h)),
      List.cons_append]

theorem encTail_append (a b : List (Str × Str)) :
    encTail (a ++ b) = encTail a ++ encTail b := by
  induction a with
  | nil => simp [encTail]
  | cons p rest ih =>
    rw [List.cons_append, encTail, encTail, ih]
    simp [List.append_assoc]

theorem enc_append_single (ps : List (Str × Str)) (q : Str × Str) (h : ps ≠ []) :
    enc (ps ++ [q]) = enc ps ++ semi :: seg q := by
  cases ps with
  | nil => exact absurd rfl h
  | cons p rest =>
    rw [List.cons_append, enc, enc, encTail_append, List.append_assoc]
    have : encTail [q] = semi :: seg q ++ [] := by rw [encTail, encTail]
    rw [this, List.append_nil]

theorem replaceKeyVal_hashBang_none (key new : Str) (hk0 : key ≠ [])
    (hkh : hashc ∉ key) (hkb : bangc ∉ key) :
    replaceKeyVal (key ++ [eqc]) new hashBang = none := by
  apply replaceKeyVal_none _ _ (by simp)
  intro t ht hts
  have hw2 : t = hashBang ∨ t = [bangc] ∨ t = [] := by
    rcases List.suffix_cons_iff.mp hts with he | he
    · exact Or.inl he
    · rcases List.suffix_cons_iff.mp he with he2 | he2
      · exact Or.inr (Or.inl he2)
      · exact Or.inr (Or.inr (List.suffix_nil.mp he2))
  rcases hw2 with rfl | rfl | rfl
  · intro hpre
    exact pat_head_clash key hashc _ hk0 hkh (by simpa [hashBang] using hpre)
  · intro hpre
    exact pat_head_clash key bangc _ hk0 hkb hpre
  · exact absurd rfl ht

/-- The shared core of C3 and C4: on a well-formed encoded fragment,
`updateUrlValue` computes exactly the fragment encoding the updated pair
list (`key`'s segment replaced in place, or appended at the end). -/
theorem updateUrl_enc (ps : List (Str × Str)) (key v : Str) (hwf : WFfrag ps key) :
    updateUrlValue (hashBang ++ enc ps) key v = hashBang ++ enc (setKey ps key v) := by
  obtain ⟨hk0, hks, hke, hkh, hkb, hps⟩ := hwf
  cases ps with
  | nil =>
    have hfb : findBangPayload (hashBang ++ enc ([] : List (Str × Str))) = none := rfl
    have hrepl : replaceKeyVal (key ++ [eqc]) (key ++ eqc :: v) hashBang = none :=
      replaceKeyVal_hashBang_none key _ hk0 hkh hkb
    simp only [updateUrlValue, hfb, hrepl]
    have hsk : setKey ([] : List (Str × Str)) key v = [(key, v)] := rfl
    rw [hsk]
    have hv : enc [(key, v)] = (key ++ eqc :: v) ++ [] := rfl
    rw [hv, List.append_nil]
  | cons q rest =>
    have hfb : findBangPayload (hashBang ++ enc (q :: rest)) = some (enc (q :: rest)) := by
      obtain ⟨c, cs, hcs⟩ := enc_cons_shape q rest
      rw [hcs]
      exact findBangPayload_hashBang_cons c cs
    have hskip : replaceKeyVal (key ++ [eqc]) (key ++ eqc :: v)
        (hashBang ++ enc (q :: rest)) =
        (replaceKeyVal (key ++ [eqc]) (key ++ eqc :: v) (enc (q :: rest))).map
          (fun z => hashBang ++ z) := by
      apply replaceKeyVal_append
      intro t ht hts hpre
      have hw2 : t = hashBang ∨ t = [bangc] ∨ t = [] := by
        rcases List.suffix_cons_iff.mp hts with he | he
        · exact Or.inl he
        · rcases List.suffix_cons_iff.mp he with he2 | he2
          · exact Or.inr (Or.inl he2)
          · exact Or.inr (Or.inr (List.suffix_nil.mp he2))
      rcases hw2 with rfl | rfl | rfl
      · have hform : hashBang ++ enc (q :: rest) = hashc :: bangc :: enc (q :: rest) := rfl
        rw [hform] at hpre
        exact pat_head_clash key hashc _ hk0 hkh hpre
      · rw [List.cons_append] at hpre
        exact pat_head_clash key bangc _ hk0 hkb hpre
      · exact absurd rfl ht
    by_cases hmem : key ∈ (q :: rest).map Prod.fst
    · obtain ⟨hfound, _⟩ := replaceKeyVal_enc_found key v hk0 hke hks (q :: rest) hps hmem
      have hrepl : replaceKeyVal (key ++ [eqc]) (key ++ eqc :: v)
          (hashBang ++ enc (q :: rest)) =
          some (hashBang ++ enc (setKey (q :: rest) key v)) := by
        rw [hskip, hfound]
        rfl
      simp only [updateUrlValue, hfb, hrepl]
    · have hnone : replaceKeyVal (key ++ [eqc]) (key ++ eqc :: v) (enc (q :: rest)) =
          none := by
        apply replaceKeyVal_none _ _ (by simp)
        intro t ht hts
        apply enc_scan_no_match key hk0 hke hks (q :: rest) ?_ t ht hts
        intro p hp
        obtain ⟨_, h2, _, _, h5⟩ := hps p hp
        have hpk : p.1 ≠ key := fun h =>
          hmem (List.mem_map.mpr ⟨p, hp, h⟩)
        exact ⟨h2, (hps p hp).2.2.2.1, h5 hpk⟩
      have hrepl : replaceKeyVal (key ++ [eqc]) (key ++ eqc :: v)
          (hashBang ++ enc (q :: rest)) = none := by
        rw [hskip, hnone]
        rfl
      simp only [updateUrlValue, hfb, hrepl]
      rw [setKey_append_of_absent key v (q :: rest) hmem,
        enc_append_single (q :: rest) (key, v) (by simp), seg]
      simp [List.append_assoc]

theorem lookupF_setKey_other (k' : Str) :
    ∀ (f : FilterMap) (k v : Str), k' ≠ k →
      lookupF (setKey f k v) k' = lookupF f k' := by
  intro f
  induction f with
  | nil =>
    intro k v hk
    simp only [setKey, lookupF]
    rw [if_neg (fun h => hk h.symm)]
  | cons p rest ih =>
    intro k v hk
    by_cases hp : p.1 = k
    · rw [setKey, if_pos hp, lookupF, if_neg (fun h => hk h.symm), lookupF,
        if_neg (fun h : p.1 = k' => hk (hp ▸ h).symm)]
    · rw [setKey, if_neg hp, lookupF, lookupF]
      by_cases hp' : p.1 = k'
      · rw [if_pos hp', if_pos hp']
      · rw [if_neg hp', if_neg hp', ih k v hk]

/- ---------- C3 ---------- -/

def c3cexHash : Str := "#!mytag=a".toList

def c3cexNewHash : Str := "#!mytag=zz".toList

def c3cexF : FilterMap := [("tag".toList, "zz".toList)]

def c3tag : Str := "tag".toList

def c3mytag : Str := "mytag".toList

def c3dflt : Str := "d".toList

/-- C3 counterexample: with fragment `#!mytag=a`, writing `tag=zz` matches
the unanchored pattern `tag=[^;]*` inside the `mytag` segment and rewrites
it to `#!mytag=zz`: the other key `mytag`, whose encoded value was `a`,
now decodes to `zz`, so updating one key did not preserve the other key's
encoded value as the claim states. -/
theorem C3_counterexample :
    updateUrlFromFilterPart c3cexHash c3cexF c3tag = c3cexNewHash ∧
    filterValueFromUrl c3cexHash c3mytag c3dflt = "a".toList ∧
    filterValueFromUrl c3cexNewHash c3mytag c3dflt = "zz".toList ∧
    ("a".toList : Str) ≠ "zz".toList := by
  decide

/-- C3 amended: on a fragment encoding well-formed `key=value` segments
(no structural characters inside keys or values, and no other key of the
fragment ending in the written key - the unanchored replace pattern would
otherwise match inside that segment), `updateUrlFromFilterPart` rewrites
the fragment to exactly the encoding in which `key`'s segment is replaced
in place (or appended, `;`-separated, when absent), and every other key's
encoded pair is unchanged. -/
theorem C3_update_preserves_other_keys (ps : List (Str × Str)) (f : FilterMap)
    (key v : Str) (hv : lookupF f key = some v) (hwf : WFfrag ps key) :
    updateUrlFromFilterPart (hashBang ++ enc ps) f key =
        hashBang ++ enc (setKey ps key v) ∧
      ∀ k, k ≠ key → lookupF (setKey ps key v) k = lookupF ps k := by
  constructor
  · rw [updateUrlFromFilterPart, hv]
    exact updateUrl_enc ps key v hwf
  · intro k hk
    exact lookupF_setKey_other k ps key v hk

def c3ps : List (Str × Str) := [("a".toList, "1".toList), ("b".toList, "2".toList)]

def c3key : Str := "b".toList

def c3v : Str := "9".toList

def c3f : FilterMap := [("b".toList, "9".toList)]

theorem C3_witness :
    updateUrlFromFilterPart (hashBang ++ enc c3ps) c3f c3key =
      hashBang ++ enc (setKey c3ps c3key c3v) :=
  (C3_update_preserves_other_keys c3ps c3f c3key c3v (by decide) (by decide)).1

/- ---------- decoding a well-formed fragment finds the stored value ---------- -/

theorem takeWhile_semTail (b : Str) (hb : SemTail b) :
    b.takeWhile (fun c => c ≠ semi) = [] := by
  rcases hb with rfl | ⟨b', rfl⟩
  · rfl
  · rw [List.takeWhile_cons_of_neg (by simp)]

theorem findSegAfterSemi_skip (keyEq : Str) :
    ∀ x b : Str, semi ∉ x →
      findSegAfterSemi keyEq (x ++ b) = findSegAfterSemi keyEq b := by
  intro x
  induction x with
  | nil => intro b _; rfl
  | cons c x' ih =>
    intro b hx
    have hc : ¬ (c = semi) := fun h => hx (h ▸ List.mem_cons_self c x')
    rw [List.cons_append, findSegAfterSemi, if_neg hc,
      ih b (fun h => hx (List.mem_cons_of_mem c h))]

theorem findSegAfterSemi_semi (keyEq x : Str) :
    findSegAfterSemi keyEq (semi :: x) = findSegValue keyEq x := by
  rw [findSegAfterSemi, if_pos rfl, findSegValue]

theorem not_pat_prefix_other_seg (key k' : Str) (hke : eqc ∉ key)
    (hk'e : eqc ∉ k') (hpk : k' ≠ key) (b : Str) :
    ¬ ((key ++ [eqc]) <+: k' ++ eqc :: b) := by
  intro hpre
  obtain ⟨huk, hrest⟩ := eqc_block k' key (eqc :: b) hk'e hpre
  cases hd : key.drop k'.length with
  | nil =>
    have hlen : key.length ≤ k'.length := List.drop_eq_nil_iff.mp hd
    exact hpk (huk.eq_of_length_le hlen)
  | cons d ds =>
    rw [hd, List.cons_append] at hrest
    obtain ⟨h1, _⟩ := List.cons_prefix_cons.mp hrest
    have : d ∈ key := List.mem_of_mem_drop (hd ▸ List.mem_cons_self d ds)
    exact hke (h1 ▸ this)

theorem findSegValue_enc (key : Str) (hke : eqc ∉ key) :
    ∀ ps : List (Str × Str),
      (∀ p ∈ ps, semi ∉ p.1 ∧ eqc ∉ p.1 ∧ semi ∉ p.2) →
      ∀ v : Str, lookupF ps key = some v → v ≠ [] →
      findSegValue (key ++ [eqc]) (enc ps) = some v := by
  intro ps
  induction ps with
  | nil => intro _ v hv; simp [lookupF] at hv
  | cons p rest ih =>
    intro hps v hv hv0
    obtain ⟨h1, h2, h3⟩ := hps p (List.mem_cons_self p rest)
    by_cases hpk : p.1 = key
    · rw [lookupF, if_pos hpk] at hv
      obtain ⟨hveq⟩ := hv
      have hseg : enc (p :: rest) = (key ++ [eqc]) ++ (p.2 ++ encTail rest) := by
        rw [enc, seg, hpk]
        simp [List.append_assoc]
      have hpre : (key ++ [eqc]).isPrefixOf (enc (p :: rest)) = true := by
        rw [hseg]
        exact List.isPrefixOf_iff_prefix.mpr (List.prefix_append _ _)
      have hval : ((enc (p :: rest)).drop (key ++ [eqc]).length).takeWhile
          (fun c => c ≠ semi) = p.2 := by
        rw [hseg, List.drop_left, List.takeWhile_append_of_pos (by
          intro a ha
          simp only [decide_eq_true_eq]
          exact fun he => h3 (he ▸ ha)),
          takeWhile_semTail (encTail rest) (semTail_encTail rest), List.append_nil]
      rw [findSegValue, segValueAt, if_pos hpre, hval]
      simp [hv0]
    · rw [lookupF, if_neg hpk] at hv
      have hnp : ¬ ((key ++ [eqc]).isPrefixOf (enc (p :: rest)) = true) := by
        intro hp
        have : enc (p :: rest) = p.1 ++ eqc :: (p.2 ++ encTail rest) := by
          rw [enc, seg]
          simp [List.append_assoc]
        rw [this] at hp
        exact not_pat_prefix_other_seg key p.1 hke h2 hpk _
          (List.isPrefixOf_iff_prefix.mp hp)
      have hsegsemi : semi ∉ seg p := by
        intro hmem
        rw [seg] at hmem
        rcases List.mem_append.mp hmem with hm | hm
        · exact h1 hm
        · rcases List.mem_cons.mp hm with hm2 | hm2
          · exact absurd hm2 (by decide)
          · exact h3 hm2
      cases rest with
      | nil => simp [lookupF] at hv
      | cons r rs =>
        have henc : enc (p :: r :: rs) = seg p ++ (semi :: enc (r :: rs)) := rfl
        rw [findSegValue, segValueAt, if_neg hnp, henc,
          findSegAfterSemi_skip (key ++ [eqc]) (seg p) _ hsegsemi,
          findSegAfterSemi_semi]
        exact ih (fun q hq => hps q (List.mem_cons_of_mem p hq)) v hv hv0

theorem anchoredPayload_hashBang_cons (c : Char) (rest : Str) :
    anchoredPayload (hashBang ++ c :: rest) = some (c :: rest) := rfl

theorem setKey_mem (k v : Str) :
    ∀ (ps : List (Str × Str)) (q : Str × Str), q ∈ setKey ps k v →
      q ∈ ps ∨ q = (k, v) := by
  intro ps
  induction ps with
  | nil =>
    intro q hq
    simp only [setKey] at hq
    exact Or.inr (List.mem_singleton.mp hq)
  | cons p rest ih =>
    intro q hq
    by_cases hp : p.1 = k
    · rw [setKey, if_pos hp] at hq
      rcases List.mem_cons.mp hq with rfl | hq2
      · exact Or.inr rfl
      · exact Or.inl (List.mem_cons_of_mem p hq2)
    · rw [setKey, if_neg hp] at hq
      rcases List.mem_cons.mp hq with rfl | hq2
      · exact Or.inl (List.mem_cons_self q rest)
      · rcases ih q hq2 with h | h
        · exact Or.inl (List.mem_cons_of_mem p h)
        · exact Or.inr h

/- ---------- C4 ---------- -/

def c4key : Str := "k".toList

def c4f : FilterMap := [("k".toList, ([] : Str))]

/-- C4 counterexample: encoding the empty value (which contains no `;`)
from an empty fragment produces `#!k=`, but the decoding pattern
`(?:^|;)k=([^;]+)` demands at least one value character, so decoding falls
back to the declared default (here `"*"`), not the original empty value. -/
theorem C4_counterexample :
    updateUrlFromFilterPart [] c4f c4key = "#!k=".toList ∧
    filterValueFromUrl ("#!k=".toList) c4key starV = starV ∧
    starV ≠ ([] : Str) := by
  decide

/-- C4 amended: for a well-formed fragment and a non-empty value without
`;`, writing the value with `updateUrlFromFilterPart` and decoding the same
key from the resulting fragment with `updateFilterPartFromUrl` stores the
original value back into the filter. -/
theorem C4_roundtrip (ps : List (Str × Str)) (f f2 : FilterMap) (key v dflt : Str)
    (hv : lookupF f key = some v) (hwf : WFfrag ps key)
    (hv0 : v ≠ []) (hvs : semi ∉ v) :
    lookupF (updateFilterPartFromUrl
        (updateUrlFromFilterPart (hashBang ++ enc ps) f key) f2 key dflt) key =
      some v := by
  rw [updateFilterPartFromUrl, lookupF_setKey_self]
  have hnew : updateUrlFromFilterPart (hashBang ++ enc ps) f key =
      hashBang ++ enc (setKey ps key v) := by
    rw [updateUrlFromFilterPart, hv]
    exact updateUrl_enc ps key v hwf
  rw [hnew]
  obtain ⟨hk0, hks, hke, hkh, hkb, hps⟩ := hwf
  obtain ⟨q, qs, hq⟩ := setKey_cons_head ps key v
  obtain ⟨c, cs, hcs⟩ := enc_cons_shape q qs
  have ha : anchoredPayload (hashBang ++ enc (setKey ps key v)) =
      some (enc (setKey ps key v)) := by
    rw [hq, hcs]
    exact anchoredPayload_hashBang_cons c cs
  have hfind : findSegValue (key ++ [eqc]) (enc (setKey ps key v)) = some v := by
    apply findSegValue_enc key hke (setKey ps key v) ?_ v
      (lookupF_setKey_self ps key v) hv0
    intro p hp
    rcases setKey_mem key v ps p hp with hmem | rfl
    · obtain ⟨ha1, ha2, ha3, _, _⟩ := hps p hmem
      exact ⟨ha1, ha2, ha3⟩
    · exact ⟨hks, hke, hvs⟩
  simp only [filterValueFromUrl, ha, hfind]

def c4ps : List (Str × Str) := [("a".toList, "1".toList)]

def c4key2 : Str := "b".toList

def c4v : Str := "9".toList

def c4f2 : FilterMap := [("b".toList, "9".toList)]

theorem C4_witness :
    lookupF (updateFilterPartFromUrl
        (updateUrlFromFilterPart (hashBang ++ enc c4ps) c4f2 c4key2) [] c4key2 starV)
      c4key2 = some c4v :=
  C4_roundtrip c4ps c4f2 [] c4key2 c4v starV (by decide) (by decide) (by decide) (by decide)

/- ---------- form controls and updateFilterPartFromControls ---------- -/

/-- The tag of a filter control (only INPUT and OPTION get special
treatment in the code). -/
inductive CTag where
  | input
  | opt
  | other
deriving DecidableEq, Repr

/-- A form control carrying a `data-filter` attribute (the controls are
collected with `querySelectorAll('[data-filter]')`, so that attribute is
always present); `data-filter-off` is optional. -/
structure Control where
  tag : CTag
  checked : Bool
  selected : Bool
  dataFilter : Str
  dataFilterOff : Option Str
deriving DecidableEq, Repr

/-- The value a single control assigns to the key inside the
`updateFilterPartFromControls` loop (collapsiblesection.js lines 210-218),
`none` when the control leaves the accumulated value untouched. -/
def contribution (c : Control) : Option Str :=
  if (c.tag = CTag.input ∧ c.checked = true) ∨ (c.tag = CTag.opt ∧ c.selected = true) then
    some c.dataFilter
  else if c.tag = CTag.input ∧ c.checked = false ∧ c.dataFilterOff.isSome then
    c.dataFilterOff
  else
    none

/-- `updateFilterPartFromControls(filter, key, controls)`: start from the
empty string and let every control in document order overwrite the value
with its contribution. -/
def updateFilterPartFromControls (filter : FilterMap) (key : Str)
    (controls : List Control) : FilterMap :=
  controls.foldl
    (fun f c =>
      match contribution c with
      | some v => setKey f key v
      | none => f)
    (setKey filter key [])

/- ---------- C10 ---------- -/

theorem updateFPFC_loop (key : Str) :
    ∀ (controls : List Control) (f : FilterMap) (cur : Str),
      lookupF f key = some cur →
      lookupF (controls.foldl
        (fun f c =>
          match contribution c with
          | some v => setKey f key v
          | none => f) f) key =
        some (((controls.filterMap contribution).getLast?).getD cur) := by
  intro controls
  induction controls with
  | nil => intro f cur h; simpa using h
  | cons c rest ih =>
    intro f cur h
    cases hc : contribution c with
    | none => simp only [List.foldl_cons, hc, List.filterMap_cons, ih f cur h]
    | some v =>
      have h2 : lookupF (setKey f key v) key = some v := lookupF_setKey_self f key v
      have := ih (setKey f key v) v h2
      simp only [List.foldl_cons, hc, List.filterMap_cons, this]
      cases hlast : (rest.filterMap contribution).getLast? with
      | none =>
        simp only [hlast, Option.getD_none]
        rw [List.getLast?_cons, hlast]
        rfl
      | some w =>
        simp only [hlast, Option.getD_some]
        rw [List.getLast?_cons, hlast]
        rfl

def c10cexControls : List Control :=
  [{ tag := CTag.input, checked := true, selected := false,
     dataFilter := "x".toList, dataFilterOff := none },
   { tag := CTag.input, checked := true, selected := false,
     dataFilter := "y".toList, dataFilterOff := none },
   { tag := CTag.input, checked := false, selected := false,
     dataFilter := "z".toList, dataFilterOff := some ("n".toList) }]

def c10key : Str := "k".toList

/-- C10 counterexample: two checked checkboxes followed by an unchecked
checkbox with `data-filter-off="n"`; the last checked control's value is
`"y"`, but the unchecked checkbox comes later in document order and
overwrites the key's value with `"n"`, contradicting the claim that the
value becomes the last checked control's `data-filter`. -/
theorem C10_counterexample :
    lookupF (updateFilterPartFromControls [] c10key c10cexControls) c10key =
      some ("n".toList) ∧
    ("n".toList : Str) ≠ "y".toList := by
  decide

/-- C10 amended: recomputing a key's value from its control group sets it
to the contribution of the last contributing control in document order - a
checked input or selected option contributes its `data-filter` value, an
unchecked input with a `data-filter-off` attribute contributes that
attribute's value - and to the empty string when no control contributes. -/
theorem C10_last_contribution_wins (filter : FilterMap) (key : Str)
    (controls : List Control) :
    lookupF (updateFilterPartFromControls filter key controls) key =
      some (((controls.filterMap contribution).getLast?).getD []) := by
  rw [updateFilterPartFromControls]
  exact updateFPFC_loop key controls (setKey filter key [])
    [] (lookupF_setKey_self filter key [])

/- ---------- filter parts, setup and event handlers (C6) ---------- -/

/-- A filter part: an element with `data-filter-name`, its optional
`data-filter-default` attribute, and its controls. -/
structure FilterPart where
  name : Str
  defaultAttr : Option Str
  controls : List Control
deriving DecidableEq, Repr

/-- `data-filter-default` when present, else the wildcard. -/
def partDefault (p : FilterPart) : Str := p.defaultAttr.getD starV

/-- The filter-state effect of `setupFilterPart` (collapsiblesection.js
lines 329-356): seed `currentFilter[filterName]` with the default, then
overwrite it with the URL-decoded value (the control and DOM updates do
not touch the filter). -/
def setupFilterPart (hash : Str) (filter : FilterMap) (p : FilterPart) : FilterMap :=
  updateFilterPartFromUrl hash (setKey filter p.name (partDefault p)) p.name (partDefault p)

/-- The filter built by `setupFilter` over all parts, starting from the
empty object. -/
def setupFilterParts (hash : Str) (parts : List FilterPart) : FilterMap :=
  parts.foldl (setupFilterPart hash) []

/-- An event handled by one of the registered listeners: a `change` on a
part (recomputing the key from the current control states) or a
`popstate` (re-deriving the key from the current `location.hash`). -/
inductive FEvent where
  | change : Str → List Control → FEvent
  | popstate : Str → Str → Str → FEvent
deriving DecidableEq, Repr

/-- The filter key the event's handler was registered for. -/
def FEvent.key : FEvent → Str
  | FEvent.change k _ => k
  | FEvent.popstate k _ _ => k

/-- Handler bodies, restricted to their effect on the filter mapping. -/
def applyFEvent (filter : FilterMap) : FEvent → FilterMap
  | FEvent.change k controls => updateFilterPartFromControls filter k controls
  | FEvent.popstate k dflt hash => updateFilterPartFromUrl hash filter k dflt

/- keys of the filter mapping -/

theorem keysOf_setKey (f : FilterMap) (k v : Str) :
    (setKey f k v).map Prod.fst =
      if k ∈ f.map Prod.fst then f.map Prod.fst else f.map Prod.fst ++ [k] := by
  induction f with
  | nil => simp [setKey]
  | cons p rest ih =>
    by_cases hp : p.1 = k
    · rw [setKey, if_pos hp]
      simp [hp]
    · rw [setKey, if_neg hp]
      simp only [List.map_cons, ih]
      by_cases hm : k ∈ rest.map Prod.fst
      · rw [if_pos hm, if_pos (List.mem_cons_of_mem _ hm)]
      · rw [if_neg hm, if_neg (by
          intro hc
          rcases List.mem_cons.mp hc with h | h
          · exact hp h.symm
          · exact hm h), List.cons_append]

theorem keysOf_setKey_mem (f : FilterMap) (k v : Str) (h : k ∈ f.map Prod.fst) :
    (setKey f k v).map Prod.fst = f.map Prod.fst := by
  rw [keysOf_setKey, if_pos h]

theorem keysOf_setKey_self_mem (f : FilterMap) (k v : Str) :
    k ∈ (setKey f k v).map Prod.fst := by
  rw [keysOf_setKey]
  by_cases h : k ∈ f.map Prod.fst
  · rw [if_pos h]; exact h
  · rw [if_neg h]; simp

theorem keysOf_updateFPFC (f : FilterMap) (key : Str) (controls : List Control)
    (h : key ∈ f.map Prod.fst) :
    (updateFilterPartFromControls f key controls).map Prod.fst = f.map Prod.fst := by
  rw [updateFilterPartFromControls]
  have hstep : ∀ (cs : List Control) (g : FilterMap), key ∈ g.map Prod.fst →
      (cs.foldl (fun f c =>
        match contribution c with
        | some v => setKey f key v
        | none => f) g).map Prod.fst = g.map Prod.fst := by
    intro cs
    induction cs with
    | nil => intro g _; rfl
    | cons c rest ih =>
      intro g hg
      cases hc : contribution c with
      | none => simp only [List.foldl_cons, hc]; exact ih g hg
      | some v =>
        simp only [List.foldl_cons, hc]
        rw [ih (setKey g key v) (keysOf_setKey_self_mem g key v),
          keysOf_setKey_mem g key v hg]
  rw [hstep controls (setKey f key []) (keysOf_setKey_self_mem f key []),
    keysOf_setKey_mem f key [] h]

theorem keysOf_applyFEvent (f : FilterMap) (e : FEvent)
    (h : FEvent.key e ∈ f.map Prod.fst) :
    (applyFEvent f e).map Prod.fst = f.map Prod.fst := by
  cases e with
  | change k controls => exact keysOf_updateFPFC f k controls h
  | popstate k dflt hash =>
    rw [applyFEvent, updateFilterPartFromUrl]
    exact keysOf_setKey_mem f k _ h

theorem nodup_setKey (f : FilterMap) (k v : Str) (h : (f.map Prod.fst).Nodup) :
    ((setKey f k v).map Prod.fst).Nodup := by
  rw [keysOf_setKey]
  by_cases hm : k ∈ f.map Prod.fst
  · rw [if_pos hm]; exact h
  · rw [if_neg hm]
    rw [List.nodup_append]
    exact ⟨h, List.nodup_singleton k, by simpa using hm⟩

theorem mem_keysOf_setKey (f : FilterMap) (k v k' : Str) :
    k' ∈ (setKey f k v).map Prod.fst ↔ k' ∈ f.map Prod.fst ∨ k' = k := by
  rw [keysOf_setKey]
  by_cases hm : k ∈ f.map Prod.fst
  · rw [if_pos hm]
    constructor
    · exact Or.inl
    · rintro (h | rfl)
      · exact h
      · exact hm
  · rw [if_neg hm, List.mem_append, List.mem_singleton]

theorem setup_keys (hash : Str) :
    ∀ (parts : List FilterPart) (f : FilterMap),
      (∀ k, k ∈ ((parts.foldl (setupFilterPart hash) f).map Prod.fst) ↔
        (k ∈ f.map Prod.fst ∨ k ∈ parts.map FilterPart.name)) ∧
      ((f.map Prod.fst).Nodup →
        ((parts.foldl (setupFilterPart hash) f).map Prod.fst).Nodup) := by
  intro parts
  induction parts with
  | nil =>
    intro f
    refine ⟨fun k => ?_, fun h => h⟩
    simp
  | cons p rest ih =>
    intro f
    have hone : setupFilterPart hash f p =
        setKey (setKey f p.name (partDefault p)) p.name
          (filterValueFromUrl hash p.name (partDefault p)) := rfl
    constructor
    · intro k
      rw [List.foldl_cons, (ih (setupFilterPart hash f p)).1 k, hone,
        mem_keysOf_setKey, mem_keysOf_setKey]
      simp only [List.map_cons, List.mem_cons]
      tauto
    · intro hnd
      apply (ih (setupFilterPart hash f p)).2
      rw [hone]
      exact nodup_setKey _ _ _ (nodup_setKey _ _ _ hnd)

theorem events_keys :
    ∀ (events : List FEvent) (f : FilterMap),
      (∀ e ∈ events, FEvent.key e ∈ f.map Prod.fst) →
      (events.foldl applyFEvent f).map Prod.fst = f.map Prod.fst := by
  intro events
  induction events with
  | nil => intro f _; rfl
  | cons e rest ih =>
    intro f hev
    rw [List.foldl_cons]
    have h1 : (applyFEvent f e).map Prod.fst = f.map Prod.fst :=
      keysOf_applyFEvent f e (hev e (List.mem_cons_self e rest))
    rw [ih (applyFEvent f e) (fun e' he' => h1 ▸ hev e' (List.mem_cons_of_mem e he')),
      h1]

/-- C6: after `setupFilter` has processed every declared filter part and
after any sequence of `change` / `popstate` handler runs (each registered
for a declared part name), the in-memory filter has an entry for a key if
and only if that key is a declared `data-filter-name`, and its key list
has no duplicates - exactly one entry per declared key, never an entry for
an undeclared key. -/
theorem C6_one_entry_per_declared_key (hash : Str) (parts : List FilterPart)
    (events : List FEvent)
    (hev : ∀ e ∈ events, FEvent.key e ∈ parts.map FilterPart.name) :
    (∀ k, k ∈ ((events.foldl applyFEvent (setupFilterParts hash parts)).map Prod.fst) ↔
        k ∈ parts.map FilterPart.name) ∧
    ((events.foldl applyFEvent (setupFilterParts hash parts)).map Prod.fst).Nodup := by
  obtain ⟨hmem, hnd⟩ := setup_keys hash parts []
  have hmem' : ∀ k, k ∈ ((setupFilterParts hash parts).map Prod.fst) ↔
      k ∈ parts.map FilterPart.name := by
    intro k
    rw [setupFilterParts, hmem k]
    simp
  have hkeys : (events.foldl applyFEvent (setupFilterParts hash parts)).map Prod.fst =
      (setupFilterParts hash parts).map Prod.fst := by
    apply events_keys
    intro e he
    exact (hmem' (FEvent.key e)).mpr (hev e he)
  refine ⟨fun k => ?_, ?_⟩
  · rw [hkeys]
    exact hmem' k
  · rw [hkeys]
    exact hnd (by simp)

def c6Parts : List FilterPart :=
  [{ name := "country".toList, defaultAttr := none, controls := [] },
   { name := "tag".toList, defaultAttr := some ("eco".toList), controls := [] }]

def c6Events : List FEvent :=
  [FEvent.change ("country".toList) [],
   FEvent.popstate ("tag".toList) ("eco".toList) ("#!tag=x".toList)]

theorem C6_witness :
    (∀ k, k ∈ ((c6Events.foldl applyFEvent
          (setupFilterParts ("#!country=Norway".toList) c6Parts)).map Prod.fst) ↔
        k ∈ c6Parts.map FilterPart.name) ∧
    ((c6Events.foldl applyFEvent
        (setupFilterParts ("#!country=Norway".toList) c6Parts)).map Prod.fst).Nodup :=
  C6_one_entry_per_declared_key ("#!country=Norway".toList) c6Parts c6Events (by decide)

/- ---------- collapsible sections ---------- -/

def pcoll : Str := " collapsed".toList

def pscript : Str := " scripted".toList

def buttonStr : Str := "button".toList

def typeErr : Str := "TypeError".toList

/-- `'' + b` in JavaScript. -/
def boolStr (b : Bool) : Str := if b then "true".toList else "false".toList

/-- `className.replace(' collapsed', '')`: replace the first occurrence of
the literal pattern, or return the string unchanged. -/
def replaceFirstLit (pat repl : Str) : Str → Str
  | [] => if pat.isPrefixOf ([] : Str) then repl else []
  | c :: rest =>
    if pat.isPrefixOf (c :: rest) then repl ++ (c :: rest).drop pat.length
    else c :: replaceFirstLit pat repl rest

/-- The trigger button created by `init`. -/
structure Trigger where
  typeAttr : Str
  ariaControls : Option Str
  ariaExpanded : Option Str
  children : List Nat
deriving DecidableEq, Repr

/-- The `.contents` child (its `id` attribute and `aria-hidden`). -/
structure Contents where
  idAttr : Option Str
  ariaHidden : Option Str
deriving DecidableEq, Repr

/-- A collapsible section as the script sees it: the section's class
attribute, the heading's child nodes (`none` when no `.heading` child
exists), the contents element (`none` when missing), plus the
`CollapsibleSection` object state (`trigger`, `collapsed`). -/
structure Sect where
  className : Str
  headingChildren : Option (List Nat)
  contents : Option Contents
  trigger : Option Trigger
  collapsed : Bool
deriving DecidableEq, Repr

/-- `setCollapseState(doCollapse)` (collapsiblesection.js lines 69-79):
append `' collapsed'` or strip its first occurrence, mirror the state onto
`aria-expanded` / `aria-hidden`, and store the flag.  (At runtime the
trigger and contents exist whenever this runs; `Option.map` reflects
that.) -/
def setCollapseState (s : Sect) (doCollapse : Bool) : Sect :=
  { s with
    className :=
      if doCollapse then s.className ++ pcoll
      else replaceFirstLit pcoll [] s.className,
    trigger := s.trigger.map (fun t => { t with ariaExpanded := some (boolStr (!doCollapse)) }),
    contents := s.contents.map (fun c => { c with ariaHidden := some (boolStr doCollapse) }),
    collapsed := doCollapse }

/-- `CollapsibleSection.prototype.init` (collapsiblesection.js lines
40-62): a silent no-op when heading or contents is missing; otherwise
`contents.getAttribute('id')` is read and `.length` taken on it - a
`TypeError` when the attribute is absent (`null`) - then the trigger is
built, the heading's children move into it, the section is collapsed and
marked `scripted`. -/
def init (s : Sect) : Except Str Sect :=
  match s.headingChildren, s.contents with
  | none, _ => Except.ok s
  | some _, none => Except.ok s
  | some hc, some co =>
    match co.idAttr with
    | none => Except.error typeErr
    | some cid =>
      let t : Trigger :=
        { typeAttr := buttonStr,
          ariaControls := if 0 < cid.length then some cid else none,
          ariaExpanded := none,
          children := hc }
      let s2 := setCollapseState
        { s with headingChildren := some ([] : List Nat), trigger := some t } true
      Except.ok { s2 with className := s2.className ++ pscript }

/-- The click handler: `setCollapseState(!this.collapsed)`. -/
def toggleOnce (s : Sect) : Sect := setCollapseState s (!s.collapsed)

def togglesN : Nat → Sect → Sect
  | 0, s => s
  | n + 1, s => toggleOnce (togglesN n s)

/- ---------- C7 ---------- -/

/-- C7: when the section lacks a `.heading` child or a `.contents` child,
`init` returns without error and changes nothing: no trigger, no class
change, no attribute change. -/
theorem C7_init_noop_when_missing (s : Sect)
    (h : s.headingChildren = none ∨ s.contents = none) :
    init s = Except.ok s := by
  rcases h with h | h
  · cases hc : s.contents <;> simp [init, h, hc]
  · cases hh : s.headingChildren <;> simp [init, h, hh]

def c7Sect : Sect :=
  { className := "intro".toList, headingChildren := none,
    contents := some { idAttr := some ("c0".toList), ariaHidden := none },
    trigger := none, collapsed := false }

theorem C7_witness : init c7Sect = Except.ok c7Sect :=
  C7_init_noop_when_missing c7Sect (Or.inl rfl)

/- ---------- C8 ---------- -/

def c8Sect : Sect :=
  { className := "intro".toList, headingChildren := some [0],
    contents := some { idAttr := none, ariaHidden := none },
    trigger := none, collapsed := false }

/-- C8 (code bug): with heading and contents both present but the contents
element carrying no `id` attribute, `getAttribute('id')` returns `null`
and `contentsId.length` throws a `TypeError`; `init` does not complete,
contradicting the claim that the missing-element no-op is the only error
condition (the jQuery variant in src/unnamed/part_000 guards this with a
`typeof contentsId === 'string'` check). -/
theorem C8_init_throws_without_id :
    c8Sect.headingChildren.isSome = true ∧ c8Sect.contents.isSome = true ∧
      init c8Sect = Except.error typeErr :=
  ⟨rfl, rfl, rfl⟩

/- ---------- C9 machinery ---------- -/

/-- Whether `pat` occurs as a substring (scanning every suffix). -/
def occursB (pat : Str) : Str → Bool
  | [] => pat.isPrefixOf ([] : Str)
  | c :: rest => pat.isPrefixOf (c :: rest) || occursB pat rest

theorem prefix_append_left (pat a b : Str) (h : pat <+: a ++ b)
    (hl : pat.length ≤ a.length) : pat <+: a := by
  rw [List.prefix_iff_eq_take] at h
  rw [List.take_append_of_le_length hl] at h
  rw [h]
  exact List.take_prefix pat.length a

theorem occursB_suffix (pat : Str) :
    ∀ x t : Str, occursB pat x = false → t <:+ x → pat.isPrefixOf t = false := by
  intro x
  induction x with
  | nil =>
    intro t hx ht
    rw [List.suffix_nil.mp ht]
    exact hx
  | cons c rest ih =>
    intro t hx ht
    rw [occursB, Bool.or_eq_false_iff] at hx
    rcases List.suffix_cons_iff.mp ht with rfl | h2
    · exact hx.1
    · exact ih t hx.2 h2

theorem replaceFirstLit_append (pat repl : Str) :
    ∀ x y : Str, occursB pat x = false →
      (∀ k, k < pat.length → 0 < k → (pat.drop k).isPrefixOf y = false) →
      replaceFirstLit pat repl (x ++ y) = x ++ replaceFirstLit pat repl y := by
  intro x
  induction x with
  | nil => intro y _ _; rw [List.nil_append, List.nil_append]
  | cons c x' ih =>
    intro y hx hy
    rw [occursB, Bool.or_eq_false_iff] at hx
    have hnp : ¬ (pat.isPrefixOf ((c :: x') ++ y) = true) := by
      intro hp
      have hpre : pat <+: (c :: x') ++ y := List.isPrefixOf_iff_prefix.mp hp
      by_cases hlen : pat.length ≤ (c :: x').length
      · have : pat <+: c :: x' := prefix_append_left pat (c :: x') y hpre hlen
        rw [List.isPrefixOf_iff_prefix.mpr this] at hx
        exact Bool.true_eq_false.mp hx.1
      · push_neg at hlen
        obtain ⟨_, hd⟩ := prefix_append_split pat (c :: x') y hpre (Nat.le_of_lt hlen)
        have := hy (c :: x').length hlen (by simp)
        rw [List.isPrefixOf_iff_prefix.mpr hd] at this
        exact Bool.true_eq_false.mp this
    rw [List.cons_append, replaceFirstLit, if_neg (by
      rw [List.cons_append] at hnp
      exact hnp)]
    rw [ih y hx.2 hy, List.cons_append]

theorem splitCh_append (ch : Char) :
    ∀ x y : Str, splitCh ch (x ++ ch :: y) = splitCh ch x ++ splitCh ch y := by
  intro x
  induction x with
  | nil =>
    intro y
    rw [List.nil_append]
    simp [splitCh]
  | cons c x' ih =>
    intro y
    by_cases hc : c = ch
    · rw [List.cons_append, splitCh, if_pos hc, ih y, splitCh, if_pos hc,
        List.cons_append]
    · rw [List.cons_append, splitCh, if_neg hc, ih y]
      cases hsp : splitCh ch x' with
      | nil => exact absurd hsp (splitCh_ne_nil ch x')
      | cons s ss =>
        rw [splitCh, if_neg hc, hsp]
        rfl

/-- The class tokens of a `class` attribute value (split on spaces, empty
tokens dropped). -/
def classTokens (s : Str) : List Str :=
  (splitCh spc s).filter (fun t => t ≠ [])

theorem classTokens_append (x y : Str) :
    classTokens (x ++ spc :: y) = classTokens x ++ classTokens y := by
  rw [classTokens, splitCh_append spc x y, List.filter_append]
  rfl

def evenB (n : Nat) : Bool := decide (n % 2 = 0)

/-- The class attribute of an enhanced section after `n` clicks of the
trigger (the pre-enhancement class string is `cn`). -/
def initClass (cn : Str) (n : Nat) : Str :=
  if n = 0 then (cn ++ pcoll) ++ pscript
  else if n % 2 = 1 then cn ++ pscript
  else (cn ++ pscript) ++ pcoll

/-- The full state of an enhanced section after `n` clicks. -/
def reachSect (cn : Str) (hc : List Nat) (cid : Str) (ac : Option Str) (n : Nat) : Sect :=
  { className := initClass cn n,
    headingChildren := some [],
    contents := some { idAttr := some cid, ariaHidden := some (boolStr (evenB n)) },
    trigger := some { typeAttr := buttonStr, ariaControls := ac,
                      ariaExpanded := some (boolStr (!(evenB n))), children := hc },
    collapsed := evenB n }

theorem init_ok (cn : Str) (hc : List Nat) (cid : Str) (ah0 : Option Str)
    (tr0 : Option Trigger) (col0 : Bool) :
    init { className := cn, headingChildren := some hc,
           contents := some { idAttr := some cid, ariaHidden := ah0 },
           trigger := tr0, collapsed := col0 } =
      Except.ok (reachSect cn hc cid (if 0 < cid.length then some cid else none) 0) := rfl

theorem toggle_reach (cn : Str) (hc : List Nat) (cid : Str) (ac : Option Str)
    (hocc : occursB pcoll cn = false) (m : Nat) :
    toggleOnce (reachSect cn hc cid ac m) = reachSect cn hc cid ac (m + 1) := by
  by_cases hm : m % 2 = 0
  · have hm1 : (m + 1) % 2 = 1 := by omega
    have hcol : evenB m = true := by simp [evenB, hm]
    have hcol1 : evenB (m + 1) = false := by simp [evenB, hm1]
    have hclass : replaceFirstLit pcoll [] (initClass cn m) = cn ++ pscript := by
      by_cases h0 : m = 0
      · subst h0
        rw [initClass, if_pos rfl, List.append_assoc,
          replaceFirstLit_append pcoll [] cn (pcoll ++ pscript) hocc (by decide)]
        have hconc : replaceFirstLit pcoll [] (pcoll ++ pscript) = pscript := by decide
        rw [hconc]
      · rw [initClass, if_neg h0, if_neg (by omega : ¬ (m % 2 = 1)),
          List.append_assoc,
          replaceFirstLit_append pcoll [] cn (pscript ++ pcoll) hocc (by decide)]
        have hconc : replaceFirstLit pcoll [] (pscript ++ pcoll) = pscript := by decide
        rw [hconc]
    have hic : initClass cn (m + 1) = cn ++ pscript := by
      rw [initClass, if_neg (Nat.succ_ne_zero m), if_pos hm1]
    have hbody : toggleOnce (reachSect cn hc cid ac m) =
        { className := replaceFirstLit pcoll [] (initClass cn m),
          headingChildren := some [],
          contents := some { idAttr := some cid, ariaHidden := some (boolStr false) },
          trigger := some { typeAttr := buttonStr, ariaControls := ac,
                            ariaExpanded := some (boolStr true), children := hc },
          collapsed := false } := by
      rw [toggleOnce, show (reachSect cn hc cid ac m).collapsed = evenB m from rfl, hcol]
      rfl
    rw [hbody, hclass, reachSect, hic, hcol1]
    simp
  · have hm1 : m % 2 = 1 := by omega
    have hm0 : m ≠ 0 := by omega
    have hcol : evenB m = false := by simp [evenB, hm]
    have hcol1 : evenB (m + 1) = true := by simp [evenB]; omega
    have hclassm : initClass cn m = cn ++ pscript := by
      rw [initClass, if_neg hm0, if_pos hm1]
    have hic : initClass cn (m + 1) = (cn ++ pscript) ++ pcoll := by
      rw [initClass, if_neg (Nat.succ_ne_zero m), if_neg (by omega : ¬ ((m + 1) % 2 = 1))]
    have hbody : toggleOnce (reachSect cn hc cid ac m) =
        { className := initClass cn m ++ pcoll,
          headingChildren := some [],
          contents := some { idAttr := some cid, ariaHidden := some (boolStr true) },
          trigger := some { typeAttr := buttonStr, ariaControls := ac,
                            ariaExpanded := some (boolStr false), children := hc },
          collapsed := true } := by
      rw [toggleOnce, show (reachSect cn hc cid ac m).collapsed = evenB m from rfl, hcol]
      rfl
    rw [hbody, hclassm, reachSect, hic, hcol1]
    simp

theorem togglesN_reach (cn : Str) (hc : List Nat) (cid : Str) (ac : Option Str)
    (hocc : occursB pcoll cn = false) :
    ∀ n : Nat, togglesN n (reachSect cn hc cid ac 0) = reachSect cn hc cid ac n := by
  intro n
  induction n with
  | zero => rfl
  | succ m ih => rw [togglesN, ih, toggle_reach cn hc cid ac hocc m]

/- ---------- C9 ---------- -/

def c9cexRaw : Sect :=
  { className := "a collapsedX".toList, headingChildren := some [],
    contents := some { idAttr := some ("c1".toList), ariaHidden := none },
    trigger := none, collapsed := false }

def c9cexInit : Sect :=
  match init c9cexRaw with
  | Except.ok s => s
  | Except.error _ => c9cexRaw

/-- C9 counterexample: a section whose pre-enhancement class attribute is
`a collapsedX` is initialized (collapsed, class
`a collapsedX collapsed scripted`); expanding removes the FIRST occurrence
of the substring `' collapsed'`, which sits inside the token `collapsedX`,
and collapsing appends `' collapsed'` again - after the double toggle the
class token `collapsedX` is gone, so the set of classes is not restored. -/
theorem C9_counterexample :
    init c9cexRaw = Except.ok c9cexInit ∧
    ("collapsedX".toList : Str) ∈ classTokens c9cexInit.className ∧
    ("collapsedX".toList : Str) ∉
      classTokens (toggleOnce (toggleOnce c9cexInit)).className ∧
    (toggleOnce (toggleOnce c9cexInit)).collapsed = c9cexInit.collapsed := by
  refine ⟨rfl, by decide, by decide, by decide⟩

/-- C9 amended: for every section whose pre-enhancement class attribute
does not contain the substring `' collapsed'` (in particular no class
other than `collapsed` itself ends in or equals it), in every state
reachable from `init` by trigger clicks, calling `setCollapseState` twice
with the negation of the current state restores the set of classes, the
trigger's `aria-expanded`, the contents' `aria-hidden` and the internal
collapsed flag. -/
theorem C9_toggle_twice_roundtrip (cn : Str) (hc : List Nat) (cid : Str)
    (ah0 : Option Str) (tr0 : Option Trigger) (col0 : Bool) (s0 : Sect) (n : Nat)
    (hocc : occursB pcoll cn = false)
    (hinit : init ⟨cn, some hc, some ⟨some cid, ah0⟩, tr0, col0⟩ = Except.ok s0) :
    (∀ c, c ∈ classTokens (toggleOnce (toggleOnce (togglesN n s0))).className ↔
        c ∈ classTokens (togglesN n s0).className) ∧
    (toggleOnce (toggleOnce (togglesN n s0))).trigger.map Trigger.ariaExpanded =
      (togglesN n s0).trigger.map Trigger.ariaExpanded ∧
    (toggleOnce (toggleOnce (togglesN n s0))).contents.map Contents.ariaHidden =
      (togglesN n s0).contents.map Contents.ariaHidden ∧
    (toggleOnce (toggleOnce (togglesN n s0))).collapsed = (togglesN n s0).collapsed := by
  have h0 := init_ok cn hc cid ah0 tr0 col0
  rw [hinit] at h0
  have hs0 : s0 = reachSect cn hc cid (if 0 < cid.length then some cid else none) 0 :=
    Except.ok.inj h0
  subst hs0
  have h1 := togglesN_reach cn hc cid (if 0 < cid.length then some cid else none) hocc n
  have h2 : toggleOnce (toggleOnce
      (togglesN n (reachSect cn hc cid (if 0 < cid.length then some cid else none) 0))) =
      reachSect cn hc cid (if 0 < cid.length then some cid else none) (n + 2) := by
    rw [h1, toggle_reach cn hc cid _ hocc n, toggle_reach cn hc cid _ hocc (n + 1)]
  rw [h2, h1]
  have hpar : (n + 2) % 2 = n % 2 := by omega
  have heb : evenB (n + 2) = evenB n := by
    unfold evenB
    rw [hpar]
  refine ⟨?_, by simp [reachSect, heb], by simp [reachSect, heb],
    by simp [reachSect, heb]⟩
  intro c
  show c ∈ classTokens (initClass cn (n + 2)) ↔ c ∈ classTokens (initClass cn n)
  cases n with
  | zero =>
    have e2 : initClass cn 2 = cn ++ spc :: ("scripted collapsed".toList) := by
      rw [initClass, if_neg (by omega : (2 : Nat) ≠ 0),
        if_neg (by omega : ¬ ((2 : Nat) % 2 = 1)), List.append_assoc]
      have hx : pscript ++ pcoll = spc :: ("scripted collapsed".toList) := by decide
      rw [hx]
    have e0 : initClass cn 0 = cn ++ spc :: ("collapsed scripted".toList) := by
      rw [initClass, if_pos rfl, List.append_assoc]
      have hx : pcoll ++ pscript = spc :: ("collapsed scripted".toList) := by decide
      rw [hx]
    rw [show (0 : Nat) + 2 = 2 from rfl, e2, e0, classTokens_append, classTokens_append]
    have t2 : classTokens ("scripted collapsed".toList) =
        ["scripted".toList, "collapsed".toList] := by decide
    have t0 : classTokens ("collapsed scripted".toList) =
        ["collapsed".toList, "scripted".toList] := by decide
    rw [t2, t0]
    simp only [List.mem_append, List.mem_cons, List.not_mem_nil, or_false]
    tauto
  | succ m =>
    have hne : m + 1 + 2 ≠ 0 := by omega
    have hne1 : m + 1 ≠ 0 := by omega
    have hsame : initClass cn (m + 1 + 2) = initClass cn (m + 1) := by
      by_cases hp : (m + 1) % 2 = 1
      · rw [initClass, initClass, if_neg hne, if_neg hne1, if_pos (by omega), if_pos hp]
      · rw [initClass, initClass, if_neg hne, if_neg hne1, if_neg (by omega), if_neg hp]
    rw [hsame]

def c9wCn : Str := "intro".toList

def c9wCid : Str := "c1".toList

def c9wS0 : Sect := reachSect c9wCn [] c9wCid (some c9wCid) 0

theorem C9_witness :
    (∀ c, c ∈ classTokens (toggleOnce (toggleOnce (togglesN 1 c9wS0))).className ↔
        c ∈ classTokens (togglesN 1 c9wS0).className) ∧
    (toggleOnce (toggleOnce (togglesN 1 c9wS0))).trigger.map Trigger.ariaExpanded =
      (togglesN 1 c9wS0).trigger.map Trigger.ariaExpanded ∧
    (toggleOnce (toggleOnce (togglesN 1 c9wS0))).contents.map Contents.ariaHidden =
      (togglesN 1 c9wS0).contents.map Contents.ariaHidden ∧
    (toggleOnce (toggleOnce (togglesN 1 c9wS0))).collapsed = (togglesN 1 c9wS0).collapsed :=
  C9_toggle_twice_roundtrip c9wCn [] c9wCid none none false c9wS0 1 (by decide) (by rfl)
